import Mathlib

/-!
Verification of the ordered-key index (binary search tree) core of the
repository.  The data model and the operations are shallowly embedded from
the Python sources under `src/tree/` and `src/CSE373prac/`:

* `src/tree/inorderTravarsal.py`   — `add_child`, `inorder`, `insert_data`
* `src/tree/binarySeachTree.py`    — `find_min`, `find_value`, `delete_value`
* `src/tree/isBalancedBT.py`       — `isBalanced`
* `src/tree/isValidBST.py`         — `isValid`
* `src/tree/BFS.py`                — `level_order_traversal`
* `src/tree/SerializeDeserializeBT.py` — `serialize`, `deserialize`
* `src/CSE373prac/AVLtree.py`      — comment-only placeholder; the AVL
  rebalancing insert is modelled from the specification (§4.1) because the
  repository never implements it.

Python `None` children are the `BTree.nil` constructor.  A Python runtime
error (`AttributeError` from calling a method on `None`, `IndexError`,
`ValueError` from `int(...)`) is modelled by an `Option`-valued result
being `none`.
-/

/-- Binary tree with integer keys, as built by the `TreeNode` classes of the
Python sources: a `data` field and optional `left`/`right` children. -/
inductive BTree where
  | nil : BTree
  | node (left : BTree) (data : Int) (right : BTree) : BTree
deriving DecidableEq

namespace BTree

/-- Number of nodes of a tree. -/
def size : BTree → Nat
  | nil => 0
  | node l _ r => size l + size r + 1

/-- Height of a tree; an absent subtree has height 0 (spec §3). -/
def height : BTree → Nat
  | nil => 0
  | node l _ r => 1 + max (height l) (height r)

/-- Key membership, as a boolean. -/
def memB (x : Int) : BTree → Bool
  | nil => false
  | node l d r => x = d || memB x l || memB x r

/-- All keys of the tree satisfy the boolean predicate `p`. -/
def allB (p : Int → Bool) : BTree → Bool
  | nil => true
  | node l d r => p d && allB p l && allB p r

/-- BST order invariant (spec §3): at every node all keys of the left
subtree are strictly smaller and all keys of the right subtree strictly
greater than the node's key. -/
def bstB : BTree → Bool
  | nil => true
  | node l d r => allB (fun x => x < d) l && allB (fun x => d < x) r && bstB l && bstB r

/-- AVL balance invariant (spec §3): at every node the heights of the two
subtrees differ by at most one. -/
def isAvl : BTree → Bool
  | nil => true
  | node l _ r =>
      isAvl l && isAvl r && (height l ≤ height r + 1) && (height r ≤ height l + 1)

theorem allB_imp_of_mem {p : Int → Bool} {t : BTree} {x : Int}
    (hall : allB p t = true) (hmem : memB x t = true) : p x = true := by
  induction t with
  | nil => simp [memB] at hmem
  | node l d r ihl ihr =>
    simp only [allB, Bool.and_eq_true] at hall
    simp only [memB, Bool.or_eq_true, decide_eq_true_eq] at hmem
    rcases hmem with (rfl | h) | h
    · exact hall.1.1
    · exact ihl hall.1.2 h
    · exact ihr hall.2 h

theorem allB_mono {p q : Int → Bool} {t : BTree}
    (hpq : ∀ x, p x = true → q x = true) (h : allB p t = true) : allB q t = true := by
  induction t with
  | nil => rfl
  | node l d r ihl ihr =>
    simp only [allB, Bool.and_eq_true] at h ⊢
    exact ⟨⟨hpq d h.1.1, ihl h.1.2⟩, ihr h.2⟩

theorem allB_of_mem_imp {p : Int → Bool} {t : BTree}
    (h : ∀ x, memB x t = true → p x = true) : allB p t = true := by
  induction t with
  | nil => rfl
  | node l d r ihl ihr =>
    simp only [allB, Bool.and_eq_true]
    refine ⟨⟨h d (by simp [memB]), ihl fun x hx => h x ?_⟩, ihr fun x hx => h x ?_⟩ <;>
      simp [memB, hx]

end BTree

namespace InorderBST

/-- Embedding of `BinarySearchTreeNode.add_child` from
`src/tree/inorderTravarsal.py`.  Python's `if self.left:` truthiness test
on a child (a node object or `None`) is the `= .nil` comparison; recursion
happens only into a present child, otherwise a fresh leaf is attached.
The `.nil` case is unreachable from `insert_data` (the method is only
invoked on actual nodes) and mirrors inserting into an absent tree.  The
same routine appears verbatim in `src/tree/isBalancedBT.py`,
`src/tree/BFS.py`, `src/tree/SerializeDeserializeBT.py` and
`src/tree/deleteFromBST.py` (those variants add a vacuous `data == None`
guard, which never fires for integer keys). -/
def add_child : BTree → Int → BTree
  | .nil, k => .node .nil k .nil
  | .node l d r, k =>
    if k = d then .node l d r
    else if k < d then
      if l = .nil then .node (.node .nil k .nil) d r else .node (add_child l k) d r
    else
      if r = .nil then .node l d (.node .nil k .nil) else .node l d (add_child r k)

/-- Embedding of `BinarySearchTreeNode.inorder` from
`src/tree/inorderTravarsal.py`: traverse the left child when present, emit
the node's key, traverse the right child when present. -/
def inorder : BTree → List Int
  | .nil => []
  | .node l d r => inorder l ++ d :: inorder r

/-- Embedding of `insert_data` from `src/tree/inorderTravarsal.py`: the
first key becomes the root, the remaining keys are inserted one at a time
with `add_child`.  (The Python function indexes `arr[0]` and is never
called on an empty sequence; an empty input is mapped to the empty tree.) -/
def insert_data : List Int → BTree
  | [] => .nil
  | k :: ks => ks.foldl add_child (.node .nil k .nil)

theorem memB_add_child (t : BTree) (k x : Int) :
    BTree.memB x (add_child t k) = true ↔ (BTree.memB x t = true ∨ x = k) := by
  induction t with
  | nil => simp [add_child, BTree.memB] <;> tauto
  | node l d r ihl ihr =>
    by_cases hkd : k = d
    · subst hkd
      simp only [add_child, if_pos rfl]
      simp [BTree.memB] <;> tauto
    · rcases lt_trichotomy k d with hlt | heq | hgt
      · by_cases hl : l = BTree.nil
        · subst hl
          simp only [add_child, if_neg hkd, if_pos hlt, if_pos rfl]
          simp [BTree.memB] <;> tauto
        · simp only [add_child, if_neg hkd, if_pos hlt, if_neg hl]
          simp [BTree.memB, ihl] <;> tauto
      · exact absurd heq hkd
      · have hnlt : ¬ k < d := by omega
        by_cases hr : r = BTree.nil
        · subst hr
          simp only [add_child, if_neg hkd, if_neg hnlt, if_pos rfl]
          simp [BTree.memB] <;> tauto
        · simp only [add_child, if_neg hkd, if_neg hnlt, if_neg hr]
          simp [BTree.memB, ihr] <;> tauto

theorem bstB_add_child (t : BTree) (k : Int) (h : BTree.bstB t = true) :
    BTree.bstB (add_child t k) = true := by
  induction t with
  | nil => simp [add_child, BTree.bstB, BTree.allB]
  | node l d r ihl ihr =>
    simp only [BTree.bstB, Bool.and_eq_true] at h
    obtain ⟨⟨⟨hal, har⟩, hbl⟩, hbr⟩ := h
    by_cases hkd : k = d
    · subst hkd
      simp only [add_child, if_pos rfl, BTree.bstB, Bool.and_eq_true]
      exact ⟨⟨⟨hal, har⟩, hbl⟩, hbr⟩
    · rcases lt_trichotomy k d with hlt | heq | hgt
      · have hall : BTree.allB (fun x => decide (x < d)) (add_child l k) = true := by
          apply BTree.allB_of_mem_imp
          intro x hx
          rcases (memB_add_child l k x).1 hx with hx | rfl
          · exact BTree.allB_imp_of_mem hal hx
          · simp [hlt]
        by_cases hl : l = BTree.nil
        · subst hl
          simp only [add_child, if_neg hkd, if_pos hlt, if_pos rfl, BTree.bstB,
            Bool.and_eq_true]
          refine ⟨⟨⟨?_, har⟩, ?_⟩, hbr⟩
          · simpa [add_child] using hall
          · simp [BTree.bstB, BTree.allB]
        · simp only [add_child, if_neg hkd, if_pos hlt, if_neg hl, BTree.bstB,
            Bool.and_eq_true]
          exact ⟨⟨⟨hall, har⟩, ihl hbl⟩, hbr⟩
      · exact absurd heq hkd
      · have hnlt : ¬ k < d := by omega
        have hall : BTree.allB (fun x => decide (d < x)) (add_child r k) = true := by
          apply BTree.allB_of_mem_imp
          intro x hx
          rcases (memB_add_child r k x).1 hx with hx | rfl
          · exact BTree.allB_imp_of_mem har hx
          · simp [hgt]
        by_cases hr : r = BTree.nil
        · subst hr
          simp only [add_child, if_neg hkd, if_neg hnlt, if_pos rfl, BTree.bstB,
            Bool.and_eq_true]
          refine ⟨⟨⟨hal, ?_⟩, hbl⟩, ?_⟩
          · simpa [add_child] using hall
          · simp [BTree.bstB, BTree.allB]
        · simp only [add_child, if_neg hkd, if_neg hnlt, if_neg hr, BTree.bstB,
            Bool.and_eq_true]
          exact ⟨⟨⟨hal, hall⟩, hbl⟩, ihr hbr⟩

theorem mem_inorder (t : BTree) (x : Int) :
    x ∈ inorder t ↔ BTree.memB x t = true := by
  induction t with
  | nil => simp [inorder, BTree.memB]
  | node l d r ihl ihr =>
    simp [inorder, BTree.memB, ihl, ihr] <;> tauto

theorem inorder_sorted_of_bst (t : BTree) (h : BTree.bstB t = true) :
    (inorder t).Sorted (· < ·) := by
  induction t with
  | nil => simp [inorder]
  | node l d r ihl ihr =>
    simp only [BTree.bstB, Bool.and_eq_true] at h
    obtain ⟨⟨⟨hal, har⟩, hbl⟩, hbr⟩ := h
    simp only [inorder, List.Sorted, List.pairwise_append, List.pairwise_cons]
    refine ⟨ihl hbl, ⟨?_, ihr hbr⟩, ?_⟩
    · intro y hy
      have := BTree.allB_imp_of_mem har ((mem_inorder r y).1 hy)
      simpa using this
    · intro x hx y hy
      have hxd : x < d := by
        have := BTree.allB_imp_of_mem hal ((mem_inorder l x).1 hx)
        simpa using this
      rcases List.mem_cons.1 hy with rfl | hy
      · exact hxd
      · have hdy : d < y := by
          have := BTree.allB_imp_of_mem har ((mem_inorder r y).1 hy)
          simpa using this
        omega

theorem bstB_foldl_add_child (l : List Int) (t : BTree) (ht : BTree.bstB t = true) :
    BTree.bstB (l.foldl add_child t) = true := by
  induction l generalizing t with
  | nil => simpa using ht
  | cons a l ih => exact ih (add_child t a) (bstB_add_child t a ht)

theorem bstB_insert_data (ks : List Int) : BTree.bstB (insert_data ks) = true := by
  cases ks with
  | nil => rfl
  | cons k ks =>
    exact bstB_foldl_add_child ks (.node .nil k .nil) (by simp [BTree.bstB, BTree.allB])

end InorderBST

namespace BSTree

/-- Embedding of `BinaryTree.find_min` from `src/tree/binarySeachTree.py`:
descend left to the end.  Calling the method on an absent tree (`None`)
would raise `AttributeError`; that is the `none` result. -/
def find_min : BTree → Option Int
  | .nil => none
  | .node l d _ => if l = .nil then some d else find_min l

/-- Embedding of `BinaryTree.delete_value` from
`src/tree/binarySeachTree.py`.  The outer `Option` is `none` exactly when
the Python code raises `AttributeError` by invoking `delete_value` on an
absent child (which happens whenever the descent steps into a `None`
child, i.e. when the key is absent from the tree).  A returned `some t`
is the subtree the Python method returns (`some .nil` for the bare
`return` in the leaf case). -/
def delete_value : BTree → Int → Option BTree
  | .nil, _ => none
  | .node l d r, v =>
    if v < d then (delete_value l v).map (fun t => .node t d r)
    else if d < v then (delete_value r v).map (fun t => .node l d t)
    else
      if l = .nil && r = .nil then some .nil
      else if l = .nil then some r
      else if r = .nil then some l
      else
        match find_min r with
        | none => none
        | some m => (delete_value r m).map (fun t => .node l m t)

/-- Embedding of `BinaryTree.find_value` from `src/tree/binarySeachTree.py`.
The Python method returns `True` when the key sits at the node it was
invoked on and `False` when the side the key would be on holds no child;
when it recurses into a present child it DISCARDS the recursive call's
result (the source is missing `return`), falls off the end of the method
and returns Python `None` — modelled as `none`.  (`BST.findValue` in
`src/CSE373prac/binarysearchTree.py` has the same missing-return slip.) -/
def find_value : BTree → Int → Option Bool
  | .nil, _ => none
  | .node l d r, v =>
    if d = v then some true
    else if v < d then
      if l = .nil then some false
      else
        let _ := find_value l v
        none
    else
      if r = .nil then some false
      else
        let _ := find_value r v
        none

theorem find_min_spec (t : BTree) (hbst : BTree.bstB t = true) (hne : t ≠ .nil) :
    ∃ m, find_min t = some m ∧ BTree.memB m t = true ∧
      ∀ x, BTree.memB x t = true → m ≤ x := by
  induction t with
  | nil => exact absurd rfl hne
  | node l d r ihl ihr =>
    simp only [BTree.bstB, Bool.and_eq_true] at hbst
    obtain ⟨⟨⟨hal, har⟩, hbl⟩, hbr⟩ := hbst
    by_cases hl : l = BTree.nil
    · subst hl
      refine ⟨d, by simp [find_min], by simp [BTree.memB], ?_⟩
      intro x hx
      simp only [BTree.memB, Bool.or_eq_true, decide_eq_true_eq] at hx
      rcases hx with (rfl | hx) | hx
      · omega
      · simp [BTree.memB] at hx
      · have := BTree.allB_imp_of_mem har hx
        simp only [decide_eq_true_eq] at this
        omega
    · obtain ⟨m, hfm, hmm, hmin⟩ := ihl hbl hl
      have hmd : m < d := by
        have := BTree.allB_imp_of_mem hal hmm
        simpa using this
      refine ⟨m, by simp [find_min, hl, hfm], by simp [BTree.memB, hmm], ?_⟩
      intro x hx
      simp only [BTree.memB, Bool.or_eq_true, decide_eq_true_eq] at hx
      rcases hx with (rfl | hx) | hx
      · omega
      · exact hmin x hx
      · have := BTree.allB_imp_of_mem har hx
        simp only [decide_eq_true_eq] at this
        omega

/-- C2: on a tree satisfying the BST order invariant, deleting a key `k`
that is present succeeds (three cases: leaf removed, one child spliced,
two children replaced by the in-order successor, the minimum of the right
subtree, which is then deleted from the right subtree), and the result
holds exactly the original keys minus `k` and still satisfies the BST
order invariant. -/
theorem c2_delete_value_correct (t : BTree) (hbst : BTree.bstB t = true) :
    ∀ k, BTree.memB k t = true →
      ∃ u, delete_value t k = some u ∧ BTree.bstB u = true ∧
        ∀ x, (BTree.memB x u = true ↔ (BTree.memB x t = true ∧ x ≠ k)) := by
  induction t with
  | nil => intro k hk; simp [BTree.memB] at hk
  | node l d r ihl ihr =>
    simp only [BTree.bstB, Bool.and_eq_true] at hbst
    obtain ⟨⟨⟨hal, har⟩, hbl⟩, hbr⟩ := hbst
    intro k hk
    rcases lt_trichotomy k d with hlt | rfl | hgt
    · have hkl : BTree.memB k l = true := by
        simp only [BTree.memB, Bool.or_eq_true, decide_eq_true_eq] at hk
        rcases hk with (rfl | hx) | hx
        · omega
        · exact hx
        · have := BTree.allB_imp_of_mem har hx
          simp only [decide_eq_true_eq] at this
          omega
      obtain ⟨u, hdel, hbu, hmemu⟩ := ihl hbl k hkl
      refine ⟨.node u d r, by simp [delete_value, if_pos hlt, hdel], ?_, ?_⟩
      · simp only [BTree.bstB, Bool.and_eq_true]
        refine ⟨⟨⟨?_, har⟩, hbu⟩, hbr⟩
        apply BTree.allB_of_mem_imp
        intro x hx
        exact BTree.allB_imp_of_mem hal (((hmemu x).1 hx).1)
      · intro x
        simp only [BTree.memB, Bool.or_eq_true, decide_eq_true_eq]
        constructor
        · rintro ((rfl | hx) | hx)
          · exact ⟨Or.inl (Or.inl rfl), by omega⟩
          · have := (hmemu x).1 hx
            exact ⟨Or.inl (Or.inr this.1), this.2⟩
          · have := BTree.allB_imp_of_mem har hx
            simp only [decide_eq_true_eq] at this
            exact ⟨Or.inr hx, by omega⟩
        · rintro ⟨(rfl | hx) | hx, hne⟩
          · exact Or.inl (Or.inl rfl)
          · exact Or.inl (Or.inr ((hmemu x).2 ⟨hx, hne⟩))
          · exact Or.inr hx
    · by_cases hl : l = BTree.nil
      · by_cases hr : r = BTree.nil
        · subst hl; subst hr
          refine ⟨.nil, by simp [delete_value], by simp [BTree.bstB], ?_⟩
          intro x
          simp [BTree.memB]
        · subst hl
          refine ⟨r, by simp [delete_value, hr], hbr, ?_⟩
          intro x
          simp only [BTree.memB, Bool.or_eq_true, decide_eq_true_eq]
          constructor
          · intro hx
            have := BTree.allB_imp_of_mem har hx
            simp only [decide_eq_true_eq] at this
            exact ⟨Or.inr hx, by omega⟩
          · rintro ⟨(rfl | hx) | hx, hne⟩
            · exact absurd rfl hne
            · simp [BTree.memB] at hx
            · exact hx
      · by_cases hr : r = BTree.nil
        · subst hr
          refine ⟨l, by simp [delete_value, hl], hbl, ?_⟩
          intro x
          simp only [BTree.memB, Bool.or_eq_true, decide_eq_true_eq]
          constructor
          · intro hx
            have := BTree.allB_imp_of_mem hal hx
            simp only [decide_eq_true_eq] at this
            exact ⟨Or.inl (Or.inr hx), by omega⟩
          · rintro ⟨(rfl | hx) | hx, hne⟩
            · exact absurd rfl hne
            · exact hx
            · simp [BTree.memB] at hx
        · obtain ⟨m, hfm, hmr, hmin⟩ := find_min_spec r hbr hr
          have hdm : k < m := by
            have := BTree.allB_imp_of_mem har hmr
            simpa using this
          obtain ⟨r2, hdel2, hbr2, hmem2⟩ := ihr hbr m hmr
          refine ⟨.node l m r2, ?_, ?_, ?_⟩
          · simp [delete_value, hl, hr, hfm, hdel2]
          · simp only [BTree.bstB, Bool.and_eq_true]
            refine ⟨⟨⟨?_, ?_⟩, hbl⟩, hbr2⟩
            · apply BTree.allB_of_mem_imp
              intro x hx
              have := BTree.allB_imp_of_mem hal hx
              simp only [decide_eq_true_eq] at this ⊢
              omega
            · apply BTree.allB_of_mem_imp
              intro x hx
              have hx2 := (hmem2 x).1 hx
              have := hmin x hx2.1
              simp only [decide_eq_true_eq]
              have hxm : x ≠ m := hx2.2
              omega
          · intro x
            simp only [BTree.memB, Bool.or_eq_true, decide_eq_true_eq]
            constructor
            · rintro ((rfl | hx) | hx)
              · exact ⟨Or.inr hmr, by omega⟩
              · have := BTree.allB_imp_of_mem hal hx
                simp only [decide_eq_true_eq] at this
                exact ⟨Or.inl (Or.inr hx), by omega⟩
              · have hx2 := (hmem2 x).1 hx
                have := BTree.allB_imp_of_mem har hx2.1
                simp only [decide_eq_true_eq] at this
                exact ⟨Or.inr hx2.1, by omega⟩
            · rintro ⟨(rfl | hx) | hx, hne⟩
              · exact absurd rfl hne
              · exact Or.inl (Or.inr hx)
              · by_cases hxm : x = m
                · exact Or.inl (Or.inl hxm)
                · exact Or.inr ((hmem2 x).2 ⟨hx, hxm⟩)
    · have hkr : BTree.memB k r = true := by
        simp only [BTree.memB, Bool.or_eq_true, decide_eq_true_eq] at hk
        rcases hk with (rfl | hx) | hx
        · omega
        · have := BTree.allB_imp_of_mem hal hx
          simp only [decide_eq_true_eq] at this
          omega
        · exact hx
      obtain ⟨u, hdel, hbu, hmemu⟩ := ihr hbr k hkr
      have hnlt : ¬ k < d := by omega
      refine ⟨.node l d u, by simp [delete_value, hnlt, if_pos hgt, hdel], ?_, ?_⟩
      · simp only [BTree.bstB, Bool.and_eq_true]
        refine ⟨⟨⟨hal, ?_⟩, hbl⟩, hbu⟩
        apply BTree.allB_of_mem_imp
        intro x hx
        exact BTree.allB_imp_of_mem har (((hmemu x).1 hx).1)
      · intro x
        simp only [BTree.memB, Bool.or_eq_true, decide_eq_true_eq]
        constructor
        · rintro ((rfl | hx) | hx)
          · exact ⟨Or.inl (Or.inl rfl), by omega⟩
          · have := BTree.allB_imp_of_mem hal hx
            simp only [decide_eq_true_eq] at this
            exact ⟨Or.inl (Or.inr hx), by omega⟩
          · have := (hmemu x).1 hx
            exact ⟨Or.inr this.1, this.2⟩
        · rintro ⟨(rfl | hx) | hx, hne⟩
          · exact Or.inl (Or.inl rfl)
          · exact Or.inl (Or.inr hx)
          · exact Or.inr ((hmemu x).2 ⟨hx, hne⟩)

end BSTree

namespace SerDe

/-- Decimal digit characters of a natural number, most significant first
(the canonical decimal form, as produced by Python `str` on a
non-negative `int`). -/
def natToChars (n : Nat) : List Char :=
  if _h : n < 10 then [Nat.digitChar n]
  else natToChars (n / 10) ++ [Nat.digitChar (n % 10)]
termination_by n
decreasing_by omega

/-- Numeric value of a list of decimal digit characters — the accumulator
loop Python's `int` performs on a validated digit string. -/
def digitsVal (cs : List Char) : Nat :=
  cs.foldl (fun n c => n * 10 + (c.toNat - '0'.toNat)) 0

/-- Model of the Python builtin `str` on `int`: the canonical decimal
representation, a leading minus sign followed by the digits of the
absolute value for negatives. -/
def pyStr (k : Int) : String :=
  if k < 0 then ⟨'-' :: natToChars k.natAbs⟩ else ⟨natToChars k.toNat⟩

/-- Model of the Python builtin `int` on strings: accepts an optional
leading minus sign followed by a non-empty run of decimal digits and
returns its value; anything else raises `ValueError`, modelled as `none`.
(Python's `int` additionally tolerates surrounding whitespace, a plus
sign and underscore separators; no such token is ever produced by
`serialize`, whose key tokens are canonical `str` output.) -/
def pyIntChars? : List Char → Option Int
  | [] => none
  | c :: cs =>
    if c = '-' then
      if cs = [] then none
      else if cs.all Char.isDigit then some (-(digitsVal cs : Int)) else none
    else if (c :: cs).all Char.isDigit then some ((digitsVal (c :: cs) : Int)) else none

/-- Model of the Python builtin `int` on a string, via its character
list. -/
def pyInt? (s : String) : Option Int :=
  pyIntChars? s.data

/-- Embedding of `serialize` from `src/tree/SerializeDeserializeBT.py` at
the token level: the `result` list built by the pre-order `dfs`, one
`str(node.data)` token per node and one sentinel token `N` per absent
child.  (The final `','.join(result)` and the matching `split(',')` in
`deserialize` are an injective framing of this token list — every token
is non-empty and comma-free — and are not modelled separately.) -/
def serialize : BTree → List String
  | .nil => ["N"]
  | .node l d r => pyStr d :: (serialize l ++ serialize r)

/-- Embedding of the `dfs` closure of `deserialize` from
`src/tree/SerializeDeserializeBT.py`.  The Python closure walks the
`values` list through a shared index `i`; here the unconsumed suffix is
threaded explicitly and `none` models a raised exception: `IndexError`
when the token list is exhausted (`values[i]` out of range) and
`ValueError` when `int(values[i])` fails on a token that is neither the
sentinel nor a decimal numeral.  The structurally decreasing `fuel`
argument only serves termination: `deserialize` supplies `values.length`,
which the proofs show is never exhausted before the token list is. -/
def deser : Nat → List String → Option (BTree × List String)
  | _, [] => none
  | 0, _ :: _ => none
  | fuel + 1, v :: rest =>
    if v = "N" then some (.nil, rest)
    else
      match pyInt? v with
      | none => none
      | some k =>
        match deser fuel rest with
        | none => none
        | some (l, rest1) =>
          match deser fuel rest1 with
          | none => none
          | some (r, rest2) => some (.node l k r, rest2)

/-- Embedding of `deserialize` from `src/tree/SerializeDeserializeBT.py`:
run `dfs` from the start of the token list and return the decoded tree,
ignoring whatever suffix `dfs` did not consume (the Python function
returns without inspecting the final index). -/
def deserialize (toks : List String) : Option BTree :=
  (deser toks.length toks).map Prod.fst

theorem digitChar_isDigit (m : Nat) (h : m < 10) :
    (Nat.digitChar m).isDigit = true := by
  interval_cases m <;> decide

theorem digitChar_toNat (m : Nat) (h : m < 10) :
    (Nat.digitChar m).toNat - '0'.toNat = m := by
  interval_cases m <;> decide

theorem natToChars_ne_nil (n : Nat) : natToChars n ≠ [] := by
  rw [natToChars]
  split <;> simp

theorem natToChars_all_digit (n : Nat) :
    (natToChars n).all Char.isDigit = true := by
  induction n using Nat.strong_induction_on with
  | _ n ih =>
    rw [natToChars]
    split
    · next h => simp [digitChar_isDigit n h]
    · next h =>
      rw [List.all_append]
      have h1 := ih (n / 10) (by omega)
      have h2 := digitChar_isDigit (n % 10) (by omega)
      simp [h1, h2]

theorem digitsVal_append_one (l : List Char) (c : Char) :
    digitsVal (l ++ [c]) = digitsVal l * 10 + (c.toNat - '0'.toNat) := by
  simp [digitsVal, List.foldl_append]

theorem digitsVal_natToChars (n : Nat) : digitsVal (natToChars n) = n := by
  induction n using Nat.strong_induction_on with
  | _ n ih =>
    rw [natToChars]
    split
    · next h =>
      simp only [digitsVal, List.foldl_cons, List.foldl_nil]
      have := digitChar_toNat n h
      omega
    · next h =>
      rw [digitsVal_append_one, ih (n / 10) (by omega)]
      have := digitChar_toNat (n % 10) (by omega)
      omega


theorem pyInt_pyStr (k : Int) : pyInt? (pyStr k) = some k := by
  by_cases hk : k < 0
  · rw [pyStr, if_pos hk]
    show pyIntChars? ('-' :: natToChars k.natAbs) = some k
    simp [pyIntChars?, natToChars_ne_nil k.natAbs, natToChars_all_digit k.natAbs,
      digitsVal_natToChars]
    rw [abs_of_neg hk, neg_neg]
  · rw [pyStr, if_neg hk]
    show pyIntChars? (natToChars k.toNat) = some k
    obtain ⟨c, cs, heq⟩ := List.exists_cons_of_ne_nil (natToChars_ne_nil k.toNat)
    have hall := natToChars_all_digit k.toNat
    have hval := digitsVal_natToChars k.toNat
    rw [heq] at hall hval ⊢
    have hcd : c.isDigit = true := by
      simp only [List.all_cons, Bool.and_eq_true] at hall
      exact hall.1
    have hcne : ¬ c = '-' := by
      intro hc
      rw [hc] at hcd
      exact absurd hcd (by decide)
    simp [pyIntChars?, hcne, hall, hval]
    omega

theorem pyStr_ne_N (k : Int) : pyStr k ≠ "N" := by
  intro h
  by_cases hk : k < 0
  · have hdata : '-' :: natToChars k.natAbs = ['N'] := by
      have hd := congrArg String.data h
      rw [pyStr, if_pos hk] at hd
      exact hd
    have hhd : '-' = 'N' := List.head_eq_of_cons_eq hdata
    exact absurd hhd (by decide)
  · have hdata : natToChars k.toNat = ['N'] := by
      have hd := congrArg String.data h
      rw [pyStr, if_neg hk] at hd
      exact hd
    have hall := natToChars_all_digit k.toNat
    rw [hdata] at hall
    simp only [List.all_cons, List.all_nil, Bool.and_eq_true] at hall
    exact absurd hall.1 (by decide)

theorem serialize_length (t : BTree) :
    (serialize t).length = 2 * t.size + 1 := by
  induction t with
  | nil => rfl
  | node l d r ihl ihr =>
    simp only [serialize, List.length_cons, List.length_append, BTree.size, ihl, ihr]
    omega

theorem serialize_count_N (t : BTree) :
    (serialize t).count "N" = t.size + 1 := by
  induction t with
  | nil => rfl
  | node l d r ihl ihr =>
    rw [serialize, List.count_cons, List.count_append, ihl, ihr]
    have hne : (pyStr d == "N") = false := by
      simp only [beq_eq_false_iff_ne, ne_eq]
      exact pyStr_ne_N d
    simp [BTree.size, hne]
    omega

theorem deser_complete (t : BTree) :
    ∀ (fuel : Nat) (rest : List String), (serialize t).length ≤ fuel →
      deser fuel (serialize t ++ rest) = some (t, rest) := by
  induction t with
  | nil =>
    intro fuel rest hfuel
    match fuel with
    | f + 1 => simp [serialize, deser]
  | node l d r ihl ihr =>
    intro fuel rest hfuel
    rw [serialize_length] at hfuel
    have hfl : (serialize l).length ≤ fuel - 1 := by
      rw [serialize_length]
      simp only [BTree.size] at hfuel
      omega
    have hfr : (serialize r).length ≤ fuel - 1 := by
      rw [serialize_length]
      simp only [BTree.size] at hfuel
      omega
    match fuel with
    | f + 1 =>
      have hassoc : serialize (BTree.node l d r) ++ rest
          = pyStr d :: (serialize l ++ (serialize r ++ rest)) := by
        simp [serialize]
      rw [hassoc]
      simp only [deser, if_neg (pyStr_ne_N d), pyInt_pyStr d,
        ihl f (serialize r ++ rest) (by omega), ihr f rest (by omega)]

end SerDe

namespace BalBT

/-- Embedding of the inner `dfs` of `isBalanced` from
`src/tree/isBalancedBT.py`: returns the pair `[balanced?, depth]` for a
subtree — the flag is true when both subtrees are balanced and their
depths differ by at most one (`abs(left[1]-right[1])<=1` on Python ints),
the depth is one more than the larger subtree depth. -/
def dfs : BTree → Bool × Int
  | .nil => (true, 0)
  | .node l _ r =>
    let L := dfs l
    let R := dfs r
    (L.1 && R.1 && decide ((L.2 - R.2).natAbs ≤ 1), max L.2 R.2 + 1)

/-- Embedding of `isBalanced` from `src/tree/isBalancedBT.py`: the flag
component of `dfs` at the root. -/
def isBalanced (root : BTree) : Bool :=
  (dfs root).1

theorem dfs_snd (t : BTree) : (dfs t).2 = (BTree.height t : Int) := by
  induction t with
  | nil => rfl
  | node l d r ihl ihr =>
    simp only [dfs, BTree.height, ihl, ihr]
    push_cast
    omega

theorem dfs_fst_iff (t : BTree) : (dfs t).1 = true ↔ BTree.isAvl t = true := by
  induction t with
  | nil => simp [dfs, BTree.isAvl]
  | node l d r ihl ihr =>
    simp only [dfs, BTree.isAvl, Bool.and_eq_true, decide_eq_true_eq]
    rw [dfs_snd l, dfs_snd r]
    constructor
    · rintro ⟨⟨h1, h2⟩, h3⟩
      exact ⟨⟨⟨ihl.1 h1, ihr.1 h2⟩, by omega⟩, by omega⟩
    · rintro ⟨⟨⟨h1, h2⟩, h3⟩, h4⟩
      exact ⟨⟨ihl.2 h1, ihr.2 h2⟩, by omega⟩

theorem isBalanced_iff_isAvl (t : BTree) :
    isBalanced t = true ↔ BTree.isAvl t = true :=
  dfs_fst_iff t

end BalBT

namespace ValidBST

/-- Lower-bound comparison `node.data > left` of `src/tree/isValidBST.py`,
with `none` standing for `float('-inf')`. -/
def loLt : Option Int → Int → Bool
  | none, _ => true
  | some a, d => a < d

/-- Upper-bound comparison `node.data < right` of `src/tree/isValidBST.py`,
with `none` standing for `float('inf')`. -/
def hiGt : Option Int → Int → Bool
  | none, _ => true
  | some b, d => d < b

/-- Embedding of the inner `valid` of `TreeNode.isValid` from
`src/tree/isValidBST.py`.  Mirroring the source faithfully: a node whose
two children are both absent returns `True` immediately, WITHOUT checking
its own bounds; otherwise a failed bound check returns `False`; otherwise
the function recurses into BOTH children even when one is absent —
`valid(None, ...)` then evaluates `None.left` and raises
`AttributeError`, modelled by the `.nil` case returning `none`.  Python's
short-circuiting `and` runs the right recursion only when the left one
returned `True`. -/
def valid : BTree → Option Int → Option Int → Option Bool
  | .nil, _, _ => none
  | .node l d r, lo, hi =>
    if l = .nil && r = .nil then some true
    else if !(loLt lo d && hiGt hi d) then some false
    else
      match valid l lo (some d) with
      | none => none
      | some false => some false
      | some true => valid r (some d) hi

/-- Embedding of `TreeNode.isValid` from `src/tree/isValidBST.py`:
`valid(self, float('-inf'), float('inf'))`. -/
def isValid (t : BTree) : Option Bool :=
  valid t none none

end ValidBST

namespace BFSTree

/-- The effect of `elements[level].append(x)` from
`src/tree/BFS.py`: append `x` to the sub-list at the given index.  (The
out-of-range case returns the list unchanged; it is unreachable because
`level_order_traversal` first extends `elements` to cover `level`.) -/
def appendAt : List (List Int) → Nat → Int → List (List Int)
  | [], _, _ => []
  | xs :: rest, 0, x => (xs ++ [x]) :: rest
  | xs :: rest, n + 1, x => xs :: appendAt rest n x

/-- Embedding of `TreeNode.level_order_traversal` from `src/tree/BFS.py`.
In source order: a new empty group is appended when `elements` does not
yet reach this depth; then `if self.data:` — Python truthiness, i.e. the
key is appended to its group only when it is non-zero; then the children
are visited (only when present) one level deeper, mutating the shared
accumulator, which is threaded here explicitly. -/
def level_order_traversal : BTree → List (List Int) → Nat → List (List Int)
  | .nil, elements, _ => elements
  | .node l d r, elements, level =>
    let e0 := if elements.length ≤ level then elements ++ [[]] else elements
    let e1 := if d ≠ 0 then appendAt e0 level d else e0
    let e2 := if l = .nil then e1 else level_order_traversal l e1 (level + 1)
    if r = .nil then e2 else level_order_traversal r e2 (level + 1)

end BFSTree

namespace AVLSpec

open BTree (height isAvl)

/-- Modelled from the spec: the left-right double rotation of §4.1,
applied when the left child is taller and leans right.  The `.nil` arm is
unreachable (the leaning child has positive height). -/
def rotLR (ll : BTree) (lk : Int) (lr : BTree) (k : Int) (r : BTree) : BTree :=
  match lr with
  | .node lrl lrk lrr => .node (.node ll lk lrl) lrk (.node lrr k r)
  | .nil => .node ll lk (.node .nil k r)

/-- Modelled from the spec: restructuring of §4.1 for a node whose left
subtree is two levels taller — a single right rotation when the left
child does not lean right (left-left), otherwise the left-right double
rotation.  The `.nil` arm is unreachable. -/
def rotLeftHeavy : BTree → Int → BTree → BTree
  | .node ll lk lr, k, r =>
    if height lr ≤ height ll then .node ll lk (.node lr k r)
    else rotLR ll lk lr k r
  | .nil, k, r => .node .nil k r

/-- Modelled from the spec: the right-left double rotation of §4.1,
mirror image of `rotLR`. -/
def rotRL (l : BTree) (k : Int) (rl : BTree) (rk : Int) (rr : BTree) : BTree :=
  match rl with
  | .node rll rlk rlr => .node (.node l k rll) rlk (.node rlr rk rr)
  | .nil => .node (.node l k .nil) rk rr

/-- Modelled from the spec: restructuring of §4.1 for a node whose right
subtree is two levels taller — a single left rotation when the right
child does not lean left (right-right), otherwise the right-left double
rotation.  The `.nil` arm is unreachable. -/
def rotRightHeavy : BTree → Int → BTree → BTree
  | l, k, .node rl rk rr =>
    if height rl ≤ height rr then .node (.node l k rl) rk rr
    else rotRL l k rl rk rr
  | l, k, .nil => .node l k .nil

/-- Modelled from the spec: the rebalancing subroutine of §4.1 — after a
structural change, recompute heights and, when the balance invariant is
violated at a node, apply the appropriate single or double rotation
chosen by the balance factors of the node and of its taller child. -/
def rebalance (l : BTree) (k : Int) (r : BTree) : BTree :=
  if height r + 2 ≤ height l then rotLeftHeavy l k r
  else if height l + 2 ≤ height r then rotRightHeavy l k r
  else .node l k r

/-- Modelled from the spec: `insert` of §4.1 — recursive BST descent
creating the node at an absent position, inserting an already-present key
is a structural no-op, and every node on the return path is rebalanced. -/
def insert : BTree → Int → BTree
  | .nil, k => .node .nil k .nil
  | .node l d r, k =>
    if k < d then rebalance (insert l k) d r
    else if d < k then rebalance l d (insert r k)
    else .node l d r

/-- Modelled from the spec: `buildFromSequence` of §6 — start from the
empty tree and insert the keys one at a time in the given order. -/
def buildFromSequence (ks : List Int) : BTree :=
  ks.foldl insert .nil

theorem rebalance_eq_node (l : BTree) (k : Int) (r : BTree)
    (h1 : height l ≤ height r + 1) (h2 : height r ≤ height l + 1) :
    rebalance l k r = .node l k r := by
  rw [rebalance, if_neg (by omega), if_neg (by omega)]

theorem rebalance_left_heavy (l r : BTree) (k : Int)
    (hal : isAvl l = true) (har : isAvl r = true)
    (hh : height l = height r + 2) :
    isAvl (rebalance l k r) = true ∧
      (height (rebalance l k r) = height r + 2 ∨
        height (rebalance l k r) = height r + 3) := by
  have hreb : rebalance l k r = rotLeftHeavy l k r := by
    rw [rebalance, if_pos (by omega)]
  rw [hreb]
  cases l with
  | nil => simp [BTree.height] at hh
  | node ll lk lr =>
    simp only [BTree.isAvl, Bool.and_eq_true, decide_eq_true_eq] at hal
    obtain ⟨⟨⟨hall, halr⟩, hb1⟩, hb2⟩ := hal
    have hhl : height (BTree.node ll lk lr) = 1 + max (height ll) (height lr) := rfl
    by_cases hcase : height lr ≤ height ll
    · rw [rotLeftHeavy, if_pos hcase]
      constructor
      · simp only [BTree.isAvl, Bool.and_eq_true, decide_eq_true_eq, BTree.height]
        simp only [BTree.height] at hh
        repeat' apply And.intro
        all_goals first | assumption | omega
      · simp only [BTree.height] at hh ⊢
        omega
    · have hlr : height lr = height ll + 1 := by omega
      rw [rotLeftHeavy, if_neg hcase]
      cases lr with
      | nil => simp [BTree.height] at hlr
      | node lrl lrk lrr =>
        simp only [BTree.isAvl, Bool.and_eq_true, decide_eq_true_eq] at halr
        obtain ⟨⟨⟨halrl, halrr⟩, hc1⟩, hc2⟩ := halr
        rw [rotLR]
        constructor
        · simp only [BTree.isAvl, Bool.and_eq_true, decide_eq_true_eq, BTree.height]
          simp only [BTree.height] at hh hlr
          repeat' apply And.intro
          all_goals first | assumption | omega
        · simp only [BTree.height] at hh hlr ⊢
          omega

theorem rebalance_right_heavy (l r : BTree) (k : Int)
    (hal : isAvl l = true) (har : isAvl r = true)
    (hh : height r = height l + 2) :
    isAvl (rebalance l k r) = true ∧
      (height (rebalance l k r) = height l + 2 ∨
        height (rebalance l k r) = height l + 3) := by
  have hreb : rebalance l k r = rotRightHeavy l k r := by
    rw [rebalance, if_neg (by omega), if_pos (by omega)]
  rw [hreb]
  cases r with
  | nil => simp [BTree.height] at hh
  | node rl rk rr =>
    simp only [BTree.isAvl, Bool.and_eq_true, decide_eq_true_eq] at har
    obtain ⟨⟨⟨harl, harr⟩, hb1⟩, hb2⟩ := har
    by_cases hcase : height rl ≤ height rr
    · rw [rotRightHeavy, if_pos hcase]
      constructor
      · simp only [BTree.isAvl, Bool.and_eq_true, decide_eq_true_eq, BTree.height]
        simp only [BTree.height] at hh
        repeat' apply And.intro
        all_goals first | assumption | omega
      · simp only [BTree.height] at hh ⊢
        omega
    · have hrl : height rl = height rr + 1 := by omega
      rw [rotRightHeavy, if_neg hcase]
      cases rl with
      | nil => simp [BTree.height] at hrl
      | node rll rlk rlr =>
        simp only [BTree.isAvl, Bool.and_eq_true, decide_eq_true_eq] at harl
        obtain ⟨⟨⟨harll, harlr⟩, hc1⟩, hc2⟩ := harl
        rw [rotRL]
        constructor
        · simp only [BTree.isAvl, Bool.and_eq_true, decide_eq_true_eq, BTree.height]
          simp only [BTree.height] at hh hrl
          repeat' apply And.intro
          all_goals first | assumption | omega
        · simp only [BTree.height] at hh hrl ⊢
          omega

theorem insert_avl (t : BTree) (k : Int) (h : isAvl t = true) :
    isAvl (insert t k) = true ∧ height t ≤ height (insert t k) ∧
      height (insert t k) ≤ height t + 1 := by
  induction t with
  | nil =>
    refine ⟨by simp [insert, BTree.isAvl, BTree.height], ?_, ?_⟩ <;>
      simp [insert, BTree.height]
  | node l d r ihl ihr =>
    simp only [BTree.isAvl, Bool.and_eq_true, decide_eq_true_eq] at h
    obtain ⟨⟨⟨hal, har⟩, hb1⟩, hb2⟩ := h
    rcases lt_trichotomy k d with hlt | rfl | hgt
    · obtain ⟨havl2, hge, hle⟩ := ihl hal
      have hins : insert (BTree.node l d r) k = rebalance (insert l k) d r := by
        rw [insert, if_pos hlt]
      rw [hins]
      by_cases hover : height (insert l k) = height r + 2
      · obtain ⟨hbal, hh⟩ := rebalance_left_heavy (insert l k) r d havl2 har hover
        refine ⟨hbal, ?_, ?_⟩ <;> simp only [BTree.height] <;> omega
      · have hr1 : height (insert l k) ≤ height r + 1 := by omega
        have hr2 : height r ≤ height (insert l k) + 1 := by omega
        rw [rebalance_eq_node _ _ _ hr1 hr2]
        refine ⟨?_, ?_, ?_⟩
        · simp only [BTree.isAvl, Bool.and_eq_true, decide_eq_true_eq]
          exact ⟨⟨⟨havl2, har⟩, by omega⟩, by omega⟩
        · simp only [BTree.height]; omega
        · simp only [BTree.height]; omega
    · have hins : insert (BTree.node l k r) k = BTree.node l k r := by
        rw [insert, if_neg (by omega), if_neg (by omega)]
      rw [hins]
      refine ⟨?_, le_rfl, by omega⟩
      simp only [BTree.isAvl, Bool.and_eq_true, decide_eq_true_eq]
      exact ⟨⟨⟨hal, har⟩, hb1⟩, hb2⟩
    · obtain ⟨havr2, hge, hle⟩ := ihr har
      have hins : insert (BTree.node l d r) k = rebalance l d (insert r k) := by
        rw [insert, if_neg (by omega), if_pos hgt]
      rw [hins]
      by_cases hover : height (insert r k) = height l + 2
      · obtain ⟨hbal, hh⟩ := rebalance_right_heavy l (insert r k) d hal havr2 hover
        refine ⟨hbal, ?_, ?_⟩ <;> simp only [BTree.height] <;> omega
      · have hr1 : height l ≤ height (insert r k) + 1 := by omega
        have hr2 : height (insert r k) ≤ height l + 1 := by omega
        rw [rebalance_eq_node _ _ _ hr1 hr2]
        refine ⟨?_, ?_, ?_⟩
        · simp only [BTree.isAvl, Bool.and_eq_true, decide_eq_true_eq]
          exact ⟨⟨⟨hal, havr2⟩, by omega⟩, by omega⟩
        · simp only [BTree.height]; omega
        · simp only [BTree.height]; omega

theorem foldl_insert_avl (ks : List Int) (t : BTree) (h : isAvl t = true) :
    isAvl (ks.foldl insert t) = true := by
  induction ks generalizing t with
  | nil => simpa using h
  | cons a ks ih => exact ih (insert t a) (insert_avl t a h).1

theorem buildFromSequence_avl (ks : List Int) :
    isAvl (buildFromSequence ks) = true :=
  foldl_insert_avl ks .nil rfl

end AVLSpec

/-- C1: for every sequence of distinct keys inserted one at a time through
`insert` (modelled from the spec, §4.1, since `src/CSE373prac/AVLtree.py`
is a comment-only placeholder) into an initially empty tree, after each
insert every node of the resulting tree satisfies the balance invariant
`|height(left) - height(right)| <= 1`; in particular the source's
`isBalanced` (from `src/tree/isBalancedBT.py`) returns `true` after every
insert of the chained single-direction sequence `[1,2,3,4,5]`. -/
theorem c1_avl_insert_keeps_balance (ks : List Int) (hdistinct : ks.Nodup) (n : Nat) :
    BTree.isAvl (AVLSpec.buildFromSequence (ks.take n)) = true ∧
      BalBT.isBalanced (AVLSpec.buildFromSequence (ks.take n)) = true := by
  have h := AVLSpec.buildFromSequence_avl (ks.take n)
  exact ⟨h, (BalBT.isBalanced_iff_isAvl _).2 h⟩

/-- C1 witness: the concrete scenario — all five inserts of `[1,2,3,4,5]`
performed, the resulting tree balanced. -/
theorem c1_avl_insert_keeps_balance_witness :
    BTree.isAvl (AVLSpec.buildFromSequence (([1, 2, 3, 4, 5] : List Int).take 5)) = true ∧
      BalBT.isBalanced (AVLSpec.buildFromSequence (([1, 2, 3, 4, 5] : List Int).take 5)) = true :=
  c1_avl_insert_keeps_balance [1, 2, 3, 4, 5] (by decide) 5

/-- C2 witness: deleting the two-child root `2` of the tree holding
`{1, 2, 3}` succeeds, keeps the order invariant and the remaining keys. -/
theorem c2_delete_value_correct_witness :
    ∃ u, BSTree.delete_value (.node (.node .nil 1 .nil) 2 (.node .nil 3 .nil)) 2 = some u ∧
      BTree.bstB u = true ∧
      ∀ x, (BTree.memB x u = true ↔
        (BTree.memB x (BTree.node (.node .nil 1 .nil) 2 (.node .nil 3 .nil)) = true ∧ x ≠ 2)) :=
  BSTree.c2_delete_value_correct (.node (.node .nil 1 .nil) 2 (.node .nil 3 .nil))
    (by decide) 2 (by decide)

/-- C3: the serializer round-trip law — for every binary tree, including
the empty tree, deserializing its serialization returns a structurally
and value-identical tree. -/
theorem c3_serialize_roundtrip (t : BTree) :
    SerDe.deserialize (SerDe.serialize t) = some t := by
  rw [SerDe.deserialize]
  have h := SerDe.deser_complete t (SerDe.serialize t).length [] le_rfl
  rw [List.append_nil] at h
  rw [h]
  rfl

/-- C4: evaluation at the failing input — deleting the absent key `10`
from the single-node tree `{20}` makes `delete_value` recurse into the
absent left child, raising `AttributeError` (the `none` result) instead
of the no-op the claim describes. -/
theorem c4_delete_absent_crashes :
    BSTree.delete_value (.node .nil 20 .nil) 10 = none ∧
      BTree.memB 10 (BTree.node .nil 20 .nil) = false := by
  decide

/-- C5: evaluation at the failing input — `find_value` on the tree with
root `11` and left child `10` (the key `10` IS stored, below the root)
returns Python `None` rather than the boolean `True`, because the
recursive call's result is discarded (missing `return`). -/
theorem c5_search_below_root_no_boolean :
    BSTree.find_value (.node (.node .nil 10 .nil) 11 .nil) 10 = none ∧
      BTree.memB 10 (BTree.node (.node .nil 10 .nil) 11 .nil) = true := by
  decide

/-- C6: evaluation at the failing inputs — `isValid` raises
`AttributeError` (the `none` result) on the perfectly valid BST with root
`10` and a single right child `20` (it recurses into the absent left
child), and returns `True` on the tree with root `10`, left child `20`
and right child `5`, which violates the BST order invariant at both
leaves (the leaf case returns `True` without checking bounds). -/
theorem c6_isValid_crashes_and_accepts_invalid :
    ValidBST.isValid (.node .nil 10 (.node .nil 20 .nil)) = none ∧
      ValidBST.isValid (.node (.node .nil 20 .nil) 10 (.node .nil 5 .nil)) = some true ∧
      BTree.bstB (BTree.node (.node .nil 20 .nil) 10 (.node .nil 5 .nil)) = false := by
  decide

/-- C7: for every tree built solely through a sequence of `add_child`
inserts starting from a single-key root, the inorder traversal lists the
stored keys in strictly ascending order (hence non-decreasing and free of
duplicates). -/
theorem c7_inorder_ascending (k : Int) (ks : List Int) :
    (InorderBST.inorder (InorderBST.insert_data (k :: ks))).Sorted (· < ·) ∧
      ∀ x, x ∈ InorderBST.inorder (InorderBST.insert_data (k :: ks)) ↔
        BTree.memB x (InorderBST.insert_data (k :: ks)) = true :=
  ⟨InorderBST.inorder_sorted_of_bst _ (InorderBST.bstB_insert_data _),
    fun _ => InorderBST.mem_inorder _ _⟩

/-- C9: evaluation at the failing input — the single-node tree holding
the key `0`: `level_order_traversal` returns one group for depth 0 but
omits the stored key `0` from it, because the guard `if self.data:` is
false for a zero key.  A non-zero key in the same position is reported. -/
theorem c9_level_order_drops_zero_key :
    BFSTree.level_order_traversal (.node .nil 0 .nil) [] 0 = [[]] ∧
      BTree.memB 0 (BTree.node .nil 0 .nil) = true ∧
      BFSTree.level_order_traversal (.node .nil 1 .nil) [] 0 = [[1]] := by
  decide

/-- C10: `serialize` emits a flat sequence of exactly `2n+1` tokens for a
tree of `n` nodes — one key token per node and `n+1` sentinel tokens
`N`, one per absent child — and the empty tree serializes to the single
sentinel token. -/
theorem c10_serialize_token_count :
    (∀ t : BTree, (SerDe.serialize t).length = 2 * t.size + 1 ∧
        (SerDe.serialize t).count "N" = t.size + 1) ∧
      SerDe.serialize .nil = ["N"] :=
  ⟨fun t => ⟨SerDe.serialize_length t, SerDe.serialize_count_N t⟩, rfl⟩
